import Mathlib

/-!
Verification of the seller-apis inventory synchronizer.

Shallow embedding of the pure data transforms of `seller.py` and `market.py`:
the stock reconciler (`create_stocks`), the price builder (`create_prices`),
the price-string normalizer (`price_conversion`), the batching helper
(`divide`) and the paginated catalog fetch (`get_offer_ids`).

Modelling conventions:
* spreadsheet rows are `Record`s whose fields hold the strings the code
  coerces them to with `str(...)`;
* Python `int(...)` on a string is `pyInt?`, returning `none` where Python
  raises `ValueError`;
* the in-place mutation of the `offer_ids` list is made explicit: the `S`
  variants return the final state of the list next to the normal result;
* the clock read `datetime.datetime.utcnow()...isoformat() + "Z"` inside
  `market.create_stocks` is passed in as an explicit `date` string;
* the network is an oracle mapping a request cursor to an `HttpResponse`,
  and the unbounded `while True` pagination loop takes a fuel argument.
-/

namespace SellerApis

/-- A remnants spreadsheet row as used by the code: the values of the
columns Код / Количество / Цена, each taken as the string `str(...)`
yields for it. -/
structure Record where
  code : String
  quantity : String
  price : String
deriving DecidableEq, Repr

/-- Numeric value of a list of ASCII digits, most significant first. -/
def digitsVal (l : List Char) : Nat :=
  l.foldl (fun a c => 10 * a + (c.toNat - 48)) 0

/-- ASCII whitespace, as stripped by Python `int()` around its argument. -/
def isPySpace (c : Char) : Bool :=
  c = ' ' || c = '\t' || c = '\n' || c = '\r'

/-- Strip `isPySpace` characters from both ends of a character list. -/
def pyStrip (l : List Char) : List Char :=
  ((l.dropWhile isPySpace).reverse.dropWhile isPySpace).reverse

/-- Python `int()` applied to a string: optional surrounding whitespace,
an optional sign, then a nonempty run of ASCII digits.  Any other string
raises `ValueError`, modelled as `none`. -/
def pyInt? (s : String) : Option Int :=
  match pyStrip s.toList with
  | '+' :: ds =>
    if ds ≠ [] ∧ ds.all Char.isDigit then some (digitsVal ds) else none
  | '-' :: ds =>
    if ds ≠ [] ∧ ds.all Char.isDigit then some (-(digitsVal ds : Int)) else none
  | ds =>
    if ds ≠ [] ∧ ds.all Char.isDigit then some (digitsVal ds) else none

/-- Python `str.split` on the separator `"."`, over the character list:
the list of dot-separated pieces (always nonempty). -/
def pySplitOnDot : List Char → List (List Char)
  | [] => [[]]
  | c :: cs =>
    if c = '.' then [] :: pySplitOnDot cs
    else
      match pySplitOnDot cs with
      | [] => [[c]]
      | p :: ps => (c :: p) :: ps

/-- `seller.price_conversion`: `re.sub("[^0-9]", "", price.split(".")[0])`.
Takes the piece before the first `.` and keeps exactly the ASCII digits
(`Char.isDigit` is the `[0-9]` class). -/
def price_conversion (price : String) : String :=
  String.mk (((pySplitOnDot price.toList).headD []).filter Char.isDigit)

/-- Modelled from the spec's words (section 4.4), for comparison with
`price_conversion`: take the substring before the first literal `.`
character, then strip every character that is not an ASCII digit 0-9. -/
def normalizePrice (raw : String) : String :=
  String.mk ((raw.toList.takeWhile (fun c => c != '.')).filter Char.isDigit)

/-- The quantity-to-count rule inlined in both `create_stocks`
implementations: the sentinel `">10"` gives 100, the sentinel `"1"` gives
0, and any other quantity string goes through Python `int()`. -/
def stock_of_count (count : String) : Option Int :=
  if count = ">10" then some 100
  else if count = "1" then some 0
  else pyInt? count

namespace seller

/-- One entry of the Ozon stocks payload built by `seller.create_stocks`. -/
structure StockEntry where
  offer_id : String
  stock : Int
deriving DecidableEq, Repr

/-- The first loop of `seller.create_stocks`: walks the remnants, and for
each row whose code is in the current `offer_ids` working list appends a
stock entry and removes that code from the working list (Python
`list.remove` deletes the first occurrence).  Returns the entries together
with the final state of `offer_ids`; `none` models the `ValueError` that
`int(...)` raises on an unparsable quantity. -/
def create_stocks_loop : List Record → List String → Option (List StockEntry × List String)
  | [], offer_ids => some ([], offer_ids)
  | w :: ws, offer_ids =>
    if w.code ∈ offer_ids then
      match stock_of_count w.quantity with
      | none => none
      | some st =>
        (create_stocks_loop ws (offer_ids.erase w.code)).map
          (fun r => (⟨w.code, st⟩ :: r.1, r.2))
    else create_stocks_loop ws offer_ids

/-- `seller.create_stocks` with the in-place mutation of `offer_ids` made
explicit: returns the stocks list (record-derived entries, then one
zero-stock entry per leftover offer id) and the final state of
`offer_ids`. -/
def create_stocksS (watch_remnants : List Record) (offer_ids : List String) :
    Option (List StockEntry × List String) :=
  (create_stocks_loop watch_remnants offer_ids).map
    (fun r => (r.1 ++ r.2.map (fun oid => ⟨oid, 0⟩), r.2))

/-- The return value of `seller.create_stocks`. -/
def create_stocks (watch_remnants : List Record) (offer_ids : List String) :
    Option (List StockEntry) :=
  (create_stocksS watch_remnants offer_ids).map (fun r => r.1)

/-- One entry of the Ozon prices payload built by `seller.create_prices`. -/
structure PriceEntry where
  auto_action_enabled : String
  currency_code : String
  offer_id : String
  old_price : String
  price : String
deriving DecidableEq, Repr

/-- `seller.create_prices`: one price entry per remnants row whose code is
in `offer_ids`; the list is not mutated. -/
def create_prices : List Record → List String → List PriceEntry
  | [], _ => []
  | w :: ws, offer_ids =>
    if w.code ∈ offer_ids then
      ⟨"UNKNOWN", "RUB", w.code, "0", price_conversion w.price⟩
        :: create_prices ws offer_ids
    else create_prices ws offer_ids

end seller

/-- The codes of a remnants list, in order. -/
def recordCodes (ws : List Record) : List String :=
  ws.map Record.code

namespace market

/-- One element of the `items` array inside a Yandex Market stock record. -/
structure StockItem where
  count : Int
  type : String
  updatedAt : String
deriving DecidableEq, Repr

/-- One entry of the Yandex Market stocks payload built by
`market.create_stocks`. -/
structure MarketStock where
  sku : String
  warehouseId : String
  items : List StockItem
deriving DecidableEq, Repr

/-- The record loop of `market.create_stocks`: identical matching and
counting logic to the seller loop, but each entry is the Yandex payload
shape carrying the warehouse id and the `date` string the function read
from the clock on entry. -/
def create_stocks_loop (date warehouse_id : String) :
    List Record → List String → Option (List MarketStock × List String)
  | [], offer_ids => some ([], offer_ids)
  | w :: ws, offer_ids =>
    if w.code ∈ offer_ids then
      match stock_of_count w.quantity with
      | none => none
      | some st =>
        (create_stocks_loop date warehouse_id ws (offer_ids.erase w.code)).map
          (fun r => (⟨w.code, warehouse_id, [⟨st, "FIT", date⟩]⟩ :: r.1, r.2))
    else create_stocks_loop date warehouse_id ws offer_ids

/-- `market.create_stocks` with the clock read passed in as `date` and the
in-place mutation of `offer_ids` made explicit. -/
def create_stocksS (date : String) (watch_remnants : List Record)
    (offer_ids : List String) (warehouse_id : String) :
    Option (List MarketStock × List String) :=
  (create_stocks_loop date warehouse_id watch_remnants offer_ids).map
    (fun r => (r.1 ++ r.2.map (fun oid => ⟨oid, warehouse_id, [⟨0, "FIT", date⟩]⟩), r.2))

/-- The return value of `market.create_stocks`, given the clock read
`date`. -/
def create_stocks (date : String) (watch_remnants : List Record)
    (offer_ids : List String) (warehouse_id : String) :
    Option (List MarketStock) :=
  (create_stocksS date watch_remnants offer_ids warehouse_id).map (fun r => r.1)

/-- Forget the `updatedAt` timestamps of a stock entry, for comparing
outputs of `market.create_stocks` taken at different clock readings. -/
def stripUpdatedAt (s : MarketStock) : MarketStock :=
  { s with items := s.items.map (fun it => { it with updatedAt := "" }) }

/-- One entry of the Yandex Market prices payload built by
`market.create_prices` (the commented-out fields of the source dict are
omitted). -/
structure MarketPrice where
  id : String
  value : Int
  currencyId : String
deriving DecidableEq, Repr

/-- `market.create_prices`: one price entry per remnants row whose code is
in `offer_ids`; the amount is `int(price_conversion(...))`, whose
`ValueError` on a digitless price is modelled as `none`. -/
def create_prices : List Record → List String → Option (List MarketPrice)
  | [], _ => some []
  | w :: ws, offer_ids =>
    if w.code ∈ offer_ids then
      match pyInt? (price_conversion w.price) with
      | none => none
      | some v =>
        (create_prices ws offer_ids).map (fun ps => ⟨w.code, v, "RUR"⟩ :: ps)
    else create_prices ws offer_ids

end market

/-- Structural helper for `divide`: the fuel bounds the number of chunks,
and `lst.length` units are always enough when `0 < n`. -/
def divideGo (n : Nat) : Nat → List α → List (List α)
  | _, [] => []
  | 0, _ => []
  | fuel + 1, lst => lst.take n :: divideGo n fuel (lst.drop n)

/-- `seller.divide`: `for i in range(0, len(lst), n): yield lst[i : i + n]`,
the list of consecutive chunks of `n` elements (last one possibly
shorter).  `range` with step 0 raises `ValueError` in Python, so the
`n = 0` case is out of contract; it is mapped to `[]` here and no theorem
relies on it. -/
def divide (lst : List α) (n : Nat) : List (List α) :=
  if n = 0 then [] else divideGo n lst.length lst

/-- The `requests.exceptions.HTTPError` raised by
`response.raise_for_status()`, carrying the offending status code. -/
structure HttpError where
  status : Nat
deriving DecidableEq, Repr

/-- An HTTP response: a status code and a parsed JSON body. -/
structure HttpResponse (β : Type) where
  status : Nat
  body : β
deriving DecidableEq, Repr

/-- `response.raise_for_status()`: raises `HTTPError` exactly for 4xx and
5xx status codes, otherwise returns the response. -/
def raise_for_status (r : HttpResponse β) : Except HttpError (HttpResponse β) :=
  if 400 ≤ r.status ∧ r.status < 600 then Except.error ⟨r.status⟩ else Except.ok r

/-- Outcome of a paginated fetch: an HTTP error aborts it, and the fuel
bound models the possibility that the `while True` loop never meets its
exit condition. -/
inductive FetchError where
  | http (e : HttpError)
  | fuelExhausted
deriving DecidableEq, Repr

namespace seller

/-- One element of the `items` array of the Ozon product-list response
(only the field the code reads). -/
structure ProductItem where
  offer_id : String
deriving DecidableEq, Repr

/-- The `result` object of the Ozon `/v2/product/list` response. -/
structure ProductPage where
  items : List ProductItem
  total : Nat
  last_id : String
deriving DecidableEq, Repr

/-- `seller.get_product_list`: one POST to the product-list endpoint,
represented by the network oracle `net` from the `last_id` cursor; the
non-success statuses abort via `raise_for_status`. -/
def get_product_list (net : String → HttpResponse ProductPage)
    (last_id : String) : Except HttpError ProductPage :=
  (raise_for_status (net last_id)).map (fun r => r.body)

/-- The `while True` pagination loop of `seller.get_offer_ids`:
accumulates `items` until `total` equals the accumulated length. -/
def get_offer_ids_go (net : String → HttpResponse ProductPage) :
    Nat → String → List ProductItem → Except FetchError (List ProductItem)
  | 0, _, _ => Except.error FetchError.fuelExhausted
  | fuel + 1, last_id, product_list =>
    match get_product_list net last_id with
    | Except.error e => Except.error (FetchError.http e)
    | Except.ok page =>
      let acc := product_list ++ page.items
      if page.total = acc.length then Except.ok acc
      else get_offer_ids_go net fuel page.last_id acc

/-- `seller.get_offer_ids`: runs the pagination loop from the empty cursor
and projects each accumulated product to its `offer_id`. -/
def get_offer_ids (net : String → HttpResponse ProductPage) (fuel : Nat) :
    Except FetchError (List String) :=
  (get_offer_ids_go net fuel "" []).map (fun l => l.map ProductItem.offer_id)

end seller

namespace market

/-- The `offer` object inside a Yandex offer-mapping entry (only the field
the code reads). -/
structure Offer where
  shopSku : String
deriving DecidableEq, Repr

/-- One element of `offerMappingEntries` in the Yandex response. -/
structure OfferMappingEntry where
  offer : Offer
deriving DecidableEq, Repr

/-- The `paging` object of the Yandex response; an empty `nextPageToken`
models the falsy value that stops the loop. -/
structure Paging where
  nextPageToken : String
deriving DecidableEq, Repr

/-- The `result` object of the Yandex offer-mapping-entries response. -/
structure MarketPage where
  offerMappingEntries : List OfferMappingEntry
  paging : Paging
deriving DecidableEq, Repr

/-- `market.get_product_list`: one GET to the offer-mapping-entries
endpoint, represented by the network oracle `net` from the page token. -/
def get_product_list (net : String → HttpResponse MarketPage)
    (page : String) : Except HttpError MarketPage :=
  (raise_for_status (net page)).map (fun r => r.body)

/-- The `while True` pagination loop of `market.get_offer_ids`:
accumulates `offerMappingEntries` until the next page token is falsy. -/
def get_offer_ids_go (net : String → HttpResponse MarketPage) :
    Nat → String → List OfferMappingEntry → Except FetchError (List OfferMappingEntry)
  | 0, _, _ => Except.error FetchError.fuelExhausted
  | fuel + 1, page, product_list =>
    match get_product_list net page with
    | Except.error e => Except.error (FetchError.http e)
    | Except.ok pg =>
      let acc := product_list ++ pg.offerMappingEntries
      if pg.paging.nextPageToken = "" then Except.ok acc
      else get_offer_ids_go net fuel pg.paging.nextPageToken acc

/-- `market.get_offer_ids`: runs the pagination loop from the empty page
token and projects each accumulated entry to `offer.shopSku`. -/
def get_offer_ids (net : String → HttpResponse MarketPage) (fuel : Nat) :
    Except FetchError (List String) :=
  (get_offer_ids_go net fuel "" []).map (fun l => l.map (fun p => p.offer.shopSku))

end market

/-- A Python value passed to `price_conversion`, for the dynamic-typing
precondition: the code calls `price.split(".")`, which only the `str`
type supports. -/
inductive PyValue where
  | str (s : String)
  | float (units : Int) (hundredths : Nat)
  | int (n : Int)
deriving DecidableEq, Repr

/-- The error Python raises when `price_conversion` is applied to a
non-string: attribute lookup of `split` on the value's type fails. -/
inductive PyError where
  | attributeError (typeName attr : String)
deriving DecidableEq, Repr

/-- `price_conversion` under Python call semantics: a `str` argument runs
the real body, any other argument fails on the `price.split` attribute
lookup (the docstring's advertised `TypeError`-equivalent failure). -/
def price_conversion_dyn : PyValue → Except PyError String
  | PyValue.str s => Except.ok (price_conversion s)
  | PyValue.float _ _ => Except.error (PyError.attributeError "float" "split")
  | PyValue.int _ => Except.error (PyError.attributeError "int" "split")

end SellerApis

namespace SellerApis

namespace seller

/-- Master structural lemma for the record loop of `seller.create_stocks`:
the final `offer_ids` state is a sublist of the initial one, emitted
offer ids together with the final state are a permutation of the initial
offer ids, every emitted entry comes from a record via the quantity rule,
emitted offer ids follow the record order, and for a duplicate-free
initial list the final state is exactly the initial list with the codes
mentioned by records filtered out. -/
theorem create_stocks_loop_spec (ws : List Record) :
    ∀ (ids rest : List String) (es : List StockEntry),
      create_stocks_loop ws ids = some (es, rest) →
      rest.Sublist ids ∧
      (es.map StockEntry.offer_id ++ rest).Perm ids ∧
      (∀ e ∈ es, ∃ r ∈ ws, e.offer_id = r.code ∧
        stock_of_count r.quantity = some e.stock) ∧
      (es.map StockEntry.offer_id).Sublist (recordCodes ws) ∧
      (ids.Nodup → rest = ids.filter (fun oid => decide (oid ∉ recordCodes ws))) := by
  induction ws with
  | nil =>
    intro ids rest es h
    simp only [create_stocks_loop, Option.some.injEq, Prod.mk.injEq] at h
    obtain ⟨rfl, rfl⟩ := h
    refine ⟨List.Sublist.refl ids, by simp, by simp, by simp [recordCodes], ?_⟩
    intro _
    simp [recordCodes]
  | cons w ws ih =>
    intro ids rest es h
    simp only [create_stocks_loop] at h
    by_cases hm : w.code ∈ ids
    · rw [if_pos hm] at h
      cases hq : stock_of_count w.quantity with
      | none => rw [hq] at h; simp at h
      | some st =>
        rw [hq, Option.map_eq_some'] at h
        obtain ⟨⟨es', rest'⟩, h1, h2⟩ := h
        simp only [Prod.mk.injEq] at h2
        obtain ⟨h2a, h2b⟩ := h2
        subst h2a
        subst h2b
        obtain ⟨hsub, hperm, hent, hcodes, hfil⟩ := ih (ids.erase w.code) rest' es' h1
        refine ⟨hsub.trans (List.erase_sublist w.code ids), ?_, ?_, ?_, ?_⟩
        · simp only [List.map_cons, List.cons_append]
          exact (hperm.cons w.code).trans (List.perm_cons_erase hm).symm
        · intro e he
          rcases List.mem_cons.mp he with rfl | he'
          · exact ⟨w, List.mem_cons_self w ws, rfl, hq⟩
          · obtain ⟨r, hr, h3, h4⟩ := hent e he'
            exact ⟨r, List.mem_cons_of_mem w hr, h3, h4⟩
        · simpa [recordCodes] using hcodes.cons₂ w.code
        · intro hN
          rw [hfil (hN.erase w.code), hN.erase_eq_filter w.code,
            List.filter_filter]
          refine List.filter_congr ?_
          intro a _
          by_cases h5 : a = w.code
          · subst h5; simp [recordCodes]
          · by_cases h6 : a ∈ recordCodes ws <;>
              simp [recordCodes, h5, h6] at *
    · rw [if_neg hm] at h
      obtain ⟨hsub, hperm, hent, hcodes, hfil⟩ := ih ids rest es h
      refine ⟨hsub, hperm, ?_, ?_, ?_⟩
      · intro e he
        obtain ⟨r, hr, h3, h4⟩ := hent e he
        exact ⟨r, List.mem_cons_of_mem w hr, h3, h4⟩
      · exact hcodes.trans (by simp [recordCodes])
      · intro hN
        rw [hfil hN]
        refine List.filter_congr ?_
        intro a ha
        have h5 : a ≠ w.code := fun h5 => hm (h5 ▸ ha)
        by_cases h6 : a ∈ recordCodes ws <;> simp [recordCodes, h5, h6]

end seller

namespace market

/-- The market record loop is the seller record loop with every emitted
entry re-wrapped in the Yandex payload shape (same matching, same
quantity rule, same consumption of `offer_ids`). -/
theorem create_stocks_loop_eq_seller (date wh : String) (ws : List Record) :
    ∀ ids, create_stocks_loop date wh ws ids =
      (seller.create_stocks_loop ws ids).map
        (fun r => (r.1.map (fun e => ⟨e.offer_id, wh, [⟨e.stock, "FIT", date⟩]⟩), r.2)) := by
  induction ws with
  | nil => intro ids; simp [create_stocks_loop, seller.create_stocks_loop]
  | cons w ws ih =>
    intro ids
    simp only [create_stocks_loop, seller.create_stocks_loop]
    by_cases hm : w.code ∈ ids
    · rw [if_pos hm, if_pos hm]
      cases hq : stock_of_count w.quantity with
      | none => simp
      | some st =>
        rw [ih (ids.erase w.code)]
        cases seller.create_stocks_loop ws (ids.erase w.code) with
        | none => simp
        | some r => simp
    · rw [if_neg hm, if_neg hm]; exact ih ids

end market

end SellerApis

namespace SellerApis

/-- `str.split` never returns an empty list of pieces. -/
theorem pySplitOnDot_ne_nil : ∀ l : List Char, pySplitOnDot l ≠ [] := by
  intro l
  induction l with
  | nil => simp [pySplitOnDot]
  | cons c cs ih =>
    simp only [pySplitOnDot]
    by_cases h : c = '.'
    · simp [h]
    · rw [if_neg h]
      cases hs : pySplitOnDot cs <;> simp

/-- The first piece of `str.split(".")` is the prefix before the first
dot. -/
theorem pySplitOnDot_headD :
    ∀ l : List Char, (pySplitOnDot l).headD [] = l.takeWhile (fun c => c != '.') := by
  intro l
  induction l with
  | nil => simp [pySplitOnDot]
  | cons c cs ih =>
    simp only [pySplitOnDot]
    by_cases h : c = '.'
    · subst h
      simp [List.takeWhile_cons]
    · rw [if_neg h]
      cases hs : pySplitOnDot cs with
      | nil => exact absurd hs (pySplitOnDot_ne_nil cs)
      | cons p ps =>
        have hp : p = (pySplitOnDot cs).headD [] := by rw [hs]; rfl
        simp only [List.headD_cons, List.takeWhile_cons]
        have hc : (c != '.') = true := by simp [h]
        rw [hc]
        simp only [if_true]
        rw [hp, ih]

/-- `price_conversion` computes exactly the spec's `normalizePrice`. -/
theorem price_conversion_eq_normalizePrice (raw : String) :
    price_conversion raw = normalizePrice raw := by
  unfold price_conversion normalizePrice
  rw [pySplitOnDot_headD]

/-- Unfolding of `divideGo` on a nonempty list with nonzero fuel. -/
theorem divideGo_cons (n fuel : Nat) (a : α) (l : List α) :
    divideGo n (fuel + 1) (a :: l) = (a :: l).take n :: divideGo n fuel ((a :: l).drop n) := by
  rfl

/-- `divideGo` ignores the exact fuel as long as it covers the list. -/
theorem divideGo_congr (n : Nat) (hn : n ≠ 0) :
    ∀ (fuel fuel' : Nat) (lst : List α), lst.length ≤ fuel → lst.length ≤ fuel' →
      divideGo n fuel lst = divideGo n fuel' lst := by
  intro fuel
  induction fuel with
  | zero =>
    intro fuel' lst h1 _
    have h0 : lst = [] := List.eq_nil_of_length_eq_zero (Nat.le_zero.mp h1)
    subst h0
    cases fuel' <;> rfl
  | succ f ihf =>
    intro fuel' lst h1 h2
    cases lst with
    | nil => cases fuel' <;> rfl
    | cons a l =>
      cases fuel' with
      | zero => simp at h2
      | succ f' =>
        rw [divideGo_cons, divideGo_cons]
        congr 1
        apply ihf
        · rw [List.length_drop]
          simp only [List.length_cons] at h1 ⊢
          omega
        · rw [List.length_drop]
          simp only [List.length_cons] at h2 ⊢
          omega

/-- `divide` on the empty list. -/
theorem divide_nil (n : Nat) : divide ([] : List α) n = [] := by
  unfold divide
  by_cases h : n = 0
  · rw [if_pos h]
  · rw [if_neg h]; rfl

/-- One chunking step of `divide` on a nonempty list. -/
theorem divide_cons (n : Nat) (hn : 0 < n) (lst : List α) (h : lst ≠ []) :
    divide lst n = lst.take n :: divide (lst.drop n) n := by
  obtain ⟨a, l, rfl⟩ := List.exists_cons_of_ne_nil h
  have hn0 : n ≠ 0 := Nat.pos_iff_ne_zero.mp hn
  unfold divide
  rw [if_neg hn0, if_neg hn0]
  have hlen : (a :: l).length = l.length + 1 := rfl
  rw [hlen, divideGo_cons]
  congr 1
  apply divideGo_congr n hn0
  · rw [List.length_drop]
    simp only [List.length_cons]
    omega
  · exact Nat.le_refl _

/-- With positive chunk size, `divide` returns `[]` only on `[]`. -/
theorem divide_eq_nil_iff (n : Nat) (hn : 0 < n) (lst : List α) :
    divide lst n = [] ↔ lst = [] := by
  constructor
  · intro h
    by_contra hne
    rw [divide_cons n hn lst hne] at h
    simp at h
  · intro h; subst h; exact divide_nil n

/-- Concatenating the chunks of `divide` restores the list. -/
theorem divide_join (n : Nat) (hn : 0 < n) (lst : List α) :
    (divide lst n).flatten = lst := by
  generalize hk : lst.length = k
  induction k using Nat.strong_induction_on generalizing lst with
  | _ k ih =>
    cases lst with
    | nil => simp [divide_nil]
    | cons a l =>
      rw [divide_cons n hn (a :: l) (by simp), List.flatten_cons]
      have hlt : ((a :: l).drop n).length < k := by
        subst hk
        rw [List.length_drop]
        simp only [List.length_cons]
        omega
      rw [ih ((a :: l).drop n).length hlt ((a :: l).drop n) rfl]
      exact List.take_append_drop n (a :: l)

/-- Every chunk of `divide` has at most `n` elements. -/
theorem divide_chunk_le (n : Nat) (hn : 0 < n) (lst : List α) :
    ∀ c ∈ divide lst n, c.length ≤ n := by
  generalize hk : lst.length = k
  induction k using Nat.strong_induction_on generalizing lst with
  | _ k ih =>
    cases lst with
    | nil => simp [divide_nil]
    | cons a l =>
      rw [divide_cons n hn (a :: l) (by simp)]
      intro c hc
      rcases List.mem_cons.mp hc with rfl | hc'
      · calc ((a :: l).take n).length = min n (a :: l).length := List.length_take n _
          _ ≤ n := Nat.min_le_left _ _
      · have hlt : ((a :: l).drop n).length < k := by
          subst hk
          rw [List.length_drop]
          simp only [List.length_cons]
          omega
        exact ih ((a :: l).drop n).length hlt ((a :: l).drop n) rfl c hc'

/-- Every chunk of `divide` except possibly the last has exactly `n`
elements. -/
theorem divide_chunk_full (n : Nat) (hn : 0 < n) (lst : List α) :
    ∀ i, i + 1 < (divide lst n).length → ((divide lst n).getD i []).length = n := by
  generalize hk : lst.length = k
  induction k using Nat.strong_induction_on generalizing lst with
  | _ k ih =>
    cases lst with
    | nil => simp [divide_nil]
    | cons a l =>
      rw [divide_cons n hn (a :: l) (by simp)]
      intro i hi
      cases i with
      | zero =>
        simp only [List.length_cons] at hi
        have hne : divide ((a :: l).drop n) n ≠ [] := by
          intro h0
          rw [h0] at hi
          simp at hi
        have hdrop : (a :: l).drop n ≠ [] :=
          fun h0 => hne ((divide_eq_nil_iff n hn _).mpr h0)
        have hlen : n < (a :: l).length := by
          by_contra hle
          exact hdrop (List.drop_eq_nil_of_le (Nat.le_of_not_lt hle))
        simp only [List.getD_cons_zero, List.length_take]
        omega
      | succ j =>
        simp only [List.length_cons] at hi
        have hlt : ((a :: l).drop n).length < k := by
          subst hk
          rw [List.length_drop]
          simp only [List.length_cons]
          omega
        simp only [List.getD_cons_succ]
        exact ih ((a :: l).drop n).length hlt ((a :: l).drop n) rfl j (by omega)

end SellerApis

namespace SellerApis

namespace seller

/-- `seller.create_prices` is the matching records, in order, mapped to
their price dicts. -/
theorem create_prices_eq_filter_map (ws : List Record) (ids : List String) :
    create_prices ws ids =
      (ws.filter (fun r => decide (r.code ∈ ids))).map
        (fun r => ⟨"UNKNOWN", "RUB", r.code, "0", price_conversion r.price⟩) := by
  induction ws with
  | nil => rfl
  | cons w ws ih =>
    by_cases hm : w.code ∈ ids
    · simp only [create_prices, if_pos hm, List.filter_cons,
        decide_eq_true_eq, hm, if_true, List.map_cons, ih]
    · simp only [create_prices, if_neg hm, List.filter_cons,
        decide_eq_true_eq, hm, if_false, ih]

/-- If no record code is a known offer id, `seller.create_prices` is
empty. -/
theorem create_prices_eq_nil (ws : List Record) (ids : List String)
    (h : ∀ r ∈ ws, r.code ∉ ids) : create_prices ws ids = [] := by
  rw [create_prices_eq_filter_map]
  have h0 : ws.filter (fun r => decide (r.code ∈ ids)) = [] := by
    rw [List.filter_eq_nil_iff]
    intro r hr
    simp [h r hr]
  rw [h0]
  rfl

end seller

namespace market

/-- Provenance and counting for `market.create_prices`: one entry per
matching record, each with the record's code and normalized price. -/
theorem create_prices_spec (ws : List Record) :
    ∀ (ids : List String) (out : List MarketPrice),
      create_prices ws ids = some out →
      out.length = (ws.filter (fun r => decide (r.code ∈ ids))).length ∧
      ∀ e ∈ out, ∃ r ∈ ws, r.code ∈ ids ∧ e.id = r.code ∧
        pyInt? (price_conversion r.price) = some e.value := by
  induction ws with
  | nil =>
    intro ids out h
    simp only [create_prices, Option.some.injEq] at h
    subst h
    simp
  | cons w ws ih =>
    intro ids out h
    simp only [create_prices] at h
    by_cases hm : w.code ∈ ids
    · rw [if_pos hm] at h
      cases hv : pyInt? (price_conversion w.price) with
      | none => rw [hv] at h; simp at h
      | some v =>
        rw [hv, Option.map_eq_some'] at h
        obtain ⟨ps, h1, h2⟩ := h
        subst h2
        obtain ⟨hlen, hent⟩ := ih ids ps h1
        constructor
        · simp [List.filter_cons, hm, hlen]
        · intro e he
          rcases List.mem_cons.mp he with rfl | he'
          · exact ⟨w, List.mem_cons_self w ws, hm, rfl, hv⟩
          · obtain ⟨r, hr, h3, h4, h5⟩ := hent e he'
            exact ⟨r, List.mem_cons_of_mem w hr, h3, h4, h5⟩
    · rw [if_neg hm] at h
      obtain ⟨hlen, hent⟩ := ih ids out h
      constructor
      · simp [List.filter_cons, hm, hlen]
      · intro e he
        obtain ⟨r, hr, h3, h4, h5⟩ := hent e he
        exact ⟨r, List.mem_cons_of_mem w hr, h3, h4, h5⟩

end market

end SellerApis

namespace SellerApis

namespace seller

/-- Inversion for `seller.create_stocksS`: it succeeds exactly when the
record loop does, and appends the zero-stock leftovers. -/
theorem create_stocksS_eq_some (ws : List Record) (ids : List String)
    (out : List StockEntry) (rest : List String) :
    create_stocksS ws ids = some (out, rest) ↔
      ∃ es, create_stocks_loop ws ids = some (es, rest) ∧
        out = es ++ rest.map (fun oid => ⟨oid, 0⟩) := by
  unfold create_stocksS
  cases h : create_stocks_loop ws ids with
  | none => simp
  | some r =>
    cases r with
    | mk es rest' =>
      simp only [Option.map_some', Option.some.injEq, Prod.mk.injEq]
      constructor
      · rintro ⟨h1, h2⟩
        exact ⟨es, ⟨rfl, h2⟩, h2 ▸ h1.symm⟩
      · rintro ⟨es', ⟨h1, h2⟩, h3⟩
        subst h1
        subst h2
        exact ⟨h3.symm, rfl⟩

/-- Inversion for `seller.create_stocks`. -/
theorem create_stocks_eq_some (ws : List Record) (ids : List String)
    (out : List StockEntry) :
    create_stocks ws ids = some out ↔
      ∃ es rest, create_stocks_loop ws ids = some (es, rest) ∧
        out = es ++ rest.map (fun oid => ⟨oid, 0⟩) := by
  unfold create_stocks create_stocksS
  cases h : create_stocks_loop ws ids with
  | none => simp
  | some r =>
    cases r with
    | mk es rest =>
      simp only [Option.map_some', Option.some.injEq, Prod.mk.injEq]
      constructor
      · intro h1
        exact ⟨es, rest, ⟨rfl, rfl⟩, h1.symm⟩
      · rintro ⟨es', rest', ⟨h1, h2⟩, h3⟩
        subst h1
        subst h2
        exact h3.symm

end seller

namespace market

/-- Inversion for `market.create_stocksS`, through the seller loop. -/
theorem create_stocksS_via_seller (d : String) (ws : List Record)
    (ids : List String) (wh : String) (out : List MarketStock) (rest : List String) :
    create_stocksS d ws ids wh = some (out, rest) ↔
      ∃ es, seller.create_stocks_loop ws ids = some (es, rest) ∧
        out = es.map (fun e => ⟨e.offer_id, wh, [⟨e.stock, "FIT", d⟩]⟩) ++
          rest.map (fun oid => ⟨oid, wh, [⟨0, "FIT", d⟩]⟩) := by
  unfold create_stocksS
  rw [create_stocks_loop_eq_seller]
  cases h : seller.create_stocks_loop ws ids with
  | none => simp
  | some r =>
    cases r with
    | mk es rest' =>
      simp only [Option.map_some', Option.some.injEq, Prod.mk.injEq]
      constructor
      · rintro ⟨h1, h2⟩
        exact ⟨es, ⟨rfl, h2⟩, h2 ▸ h1.symm⟩
      · rintro ⟨es', ⟨h1, h2⟩, h3⟩
        subst h1
        subst h2
        exact ⟨h3.symm, rfl⟩

/-- Inversion for `market.create_stocks`, through the seller loop. -/
theorem create_stocks_via_seller (d : String) (ws : List Record)
    (ids : List String) (wh : String) (out : List MarketStock) :
    create_stocks d ws ids wh = some out ↔
      ∃ es rest, seller.create_stocks_loop ws ids = some (es, rest) ∧
        out = es.map (fun e => ⟨e.offer_id, wh, [⟨e.stock, "FIT", d⟩]⟩) ++
          rest.map (fun oid => ⟨oid, wh, [⟨0, "FIT", d⟩]⟩) := by
  unfold create_stocks create_stocksS
  rw [create_stocks_loop_eq_seller]
  cases h : seller.create_stocks_loop ws ids with
  | none => simp
  | some r =>
    cases r with
    | mk es rest =>
      simp only [Option.map_some', Option.some.injEq, Prod.mk.injEq]
      constructor
      · intro h1
        exact ⟨es, rest, ⟨rfl, rfl⟩, h1.symm⟩
      · rintro ⟨es', rest', ⟨h1, h2⟩, h3⟩
        subst h1
        subst h2
        exact h3.symm

end market

end SellerApis

namespace SellerApis

/-- C1: for every remnants record whose code is in the (current) known
offer IDs, `create_stocks` on both platforms computes the stock count by
the rule ">10" ↦ 100, "1" ↦ 0, other quantity strings ↦ Python `int` of
the string: every record-derived output entry carries `stock_of_count` of
its record's quantity (the only other entries are the zero-stock defaults
for leftover offer ids), `stock_of_count` is exactly that rule, and the
spec's quantity-mapping scenarios evaluate as stated. -/
theorem claim_C1_quantity_rule :
    (∀ (ws : List Record) (ids : List String) (out : List seller.StockEntry)
        (e : seller.StockEntry),
      seller.create_stocks ws ids = some out → e ∈ out →
      (∃ r ∈ ws, e.offer_id = r.code ∧ stock_of_count r.quantity = some e.stock) ∨
      (e.offer_id ∈ ids ∧ e.stock = 0)) ∧
    (∀ (d : String) (ws : List Record) (ids : List String) (wh : String)
        (out : List market.MarketStock) (e : market.MarketStock),
      market.create_stocks d ws ids wh = some out → e ∈ out →
      (∃ r ∈ ws, ∃ st, stock_of_count r.quantity = some st ∧
        e = ⟨r.code, wh, [⟨st, "FIT", d⟩]⟩) ∨
      (e.sku ∈ ids ∧ e = ⟨e.sku, wh, [⟨0, "FIT", d⟩]⟩)) ∧
    stock_of_count ">10" = some 100 ∧
    stock_of_count "1" = some 0 ∧
    (∀ q, q ≠ ">10" → q ≠ "1" → stock_of_count q = pyInt? q) ∧
    seller.create_stocks
      [⟨"123", ">10", "p"⟩, ⟨"456", "1", "p"⟩, ⟨"789", "7", "p"⟩]
      ["123", "456", "789"]
      = some [⟨"123", 100⟩, ⟨"456", 0⟩, ⟨"789", 7⟩] ∧
    market.create_stocks "D" [⟨"123", ">10", "p"⟩] ["123"] "W"
      = some [⟨"123", "W", [⟨100, "FIT", "D"⟩]⟩] := by
  refine ⟨?_, ?_, rfl, rfl, ?_, by decide, by decide⟩
  · intro ws ids out e h he
    obtain ⟨es, rest, hloop, hout⟩ := (seller.create_stocks_eq_some ws ids out).mp h
    obtain ⟨hsub, -, hent, -, -⟩ := seller.create_stocks_loop_spec ws ids rest es hloop
    subst hout
    rcases List.mem_append.mp he with he1 | he2
    · exact Or.inl (hent e he1)
    · obtain ⟨oid, hoid, rfl⟩ := List.mem_map.mp he2
      exact Or.inr ⟨hsub.subset hoid, rfl⟩
  · intro d ws ids wh out e h he
    obtain ⟨es, rest, hloop, hout⟩ := (market.create_stocks_via_seller d ws ids wh out).mp h
    obtain ⟨hsub, -, hent, -, -⟩ := seller.create_stocks_loop_spec ws ids rest es hloop
    subst hout
    rcases List.mem_append.mp he with he1 | he2
    · obtain ⟨e0, he0, rfl⟩ := List.mem_map.mp he1
      obtain ⟨r, hr, hcode, hq⟩ := hent e0 he0
      exact Or.inl ⟨r, hr, e0.stock, hq, by rw [hcode]⟩
    · obtain ⟨oid, hoid, rfl⟩ := List.mem_map.mp he2
      exact Or.inr ⟨hsub.subset hoid, rfl⟩
  · intro q h1 h2
    unfold stock_of_count
    rw [if_neg h1, if_neg h2]

/-- Witness for C1 at the spec's first quantity-mapping scenario. -/
theorem claim_C1_witness :
    (∃ r ∈ [(⟨"123", ">10", "p"⟩ : Record)],
      (⟨"123", 100⟩ : seller.StockEntry).offer_id = r.code ∧
      stock_of_count r.quantity = some (⟨"123", 100⟩ : seller.StockEntry).stock) ∨
    ((⟨"123", 100⟩ : seller.StockEntry).offer_id ∈ ["123"] ∧
      (⟨"123", 100⟩ : seller.StockEntry).stock = 0) :=
  claim_C1_quantity_rule.1 [⟨"123", ">10", "p"⟩] ["123"] [⟨"123", 100⟩]
    ⟨"123", 100⟩ (by decide) (by decide)

/-- C2 (amended): for a duplicate-free offer-ID list, `create_stocks`
returns exactly `|offerIds|` entries — not `|offerIds ∪ codes(records)|`,
because a record whose code is unknown to the marketplace produces no
entry.  The emitted offer ids are a permutation of the input offer ids,
and with a duplicate-free input each offer id appears in exactly one
entry, on both platforms. -/
theorem claim_C2_entry_count :
    (∀ (ws : List Record) (ids : List String) (out : List seller.StockEntry),
      seller.create_stocks ws ids = some out →
      out.length = ids.length ∧
      (out.map seller.StockEntry.offer_id).Perm ids ∧
      (ids.Nodup → ∀ oid ∈ ids,
        (out.filter (fun e => decide (e.offer_id = oid))).length = 1)) ∧
    (∀ (d : String) (ws : List Record) (ids : List String) (wh : String)
        (out : List market.MarketStock),
      market.create_stocks d ws ids wh = some out →
      out.length = ids.length ∧
      (out.map market.MarketStock.sku).Perm ids ∧
      (ids.Nodup → ∀ oid ∈ ids,
        (out.filter (fun e => decide (e.sku = oid))).length = 1)) := by
  constructor
  · intro ws ids out h
    obtain ⟨es, rest, hloop, hout⟩ := (seller.create_stocks_eq_some ws ids out).mp h
    obtain ⟨-, hperm, -, -, -⟩ := seller.create_stocks_loop_spec ws ids rest es hloop
    subst hout
    have hmapped :
        ((es ++ rest.map (fun oid => (⟨oid, 0⟩ : seller.StockEntry))).map
          seller.StockEntry.offer_id).Perm ids := by
      simpa [Function.comp_def] using hperm
    refine ⟨?_, hmapped, ?_⟩
    · have := hmapped.length_eq
      simpa using this
    · intro hN oid hmem
      have hcount :
          ((es ++ rest.map (fun oid => (⟨oid, 0⟩ : seller.StockEntry))).map
            seller.StockEntry.offer_id).count oid = 1 := by
        rw [hmapped.count_eq oid]
        exact List.count_eq_one_of_mem hN hmem
      rw [← hcount, List.count_eq_countP, List.countP_map,
        ← List.countP_eq_length_filter]
      apply List.countP_congr
      intro e _
      by_cases h5 : e.offer_id = oid <;> simp [h5, Function.comp]
  · intro d ws ids wh out h
    obtain ⟨es, rest, hloop, hout⟩ := (market.create_stocks_via_seller d ws ids wh out).mp h
    obtain ⟨-, hperm, -, -, -⟩ := seller.create_stocks_loop_spec ws ids rest es hloop
    subst hout
    have hmapped :
        ((es.map (fun e => (⟨e.offer_id, wh, [⟨e.stock, "FIT", d⟩]⟩ : market.MarketStock)) ++
          rest.map (fun oid => (⟨oid, wh, [⟨0, "FIT", d⟩]⟩ : market.MarketStock))).map
            market.MarketStock.sku).Perm ids := by
      simpa [Function.comp_def] using hperm
    refine ⟨?_, hmapped, ?_⟩
    · have := hmapped.length_eq
      simpa using this
    · intro hN oid hmem
      have hcount :
          ((es.map (fun e => (⟨e.offer_id, wh, [⟨e.stock, "FIT", d⟩]⟩ : market.MarketStock)) ++
            rest.map (fun oid => (⟨oid, wh, [⟨0, "FIT", d⟩]⟩ : market.MarketStock))).map
              market.MarketStock.sku).count oid = 1 := by
        rw [hmapped.count_eq oid]
        exact List.count_eq_one_of_mem hN hmem
      rw [← hcount, List.count_eq_countP, List.countP_map,
        ← List.countP_eq_length_filter]
      apply List.countP_congr
      intro e _
      by_cases h5 : e.sku = oid <;> simp [h5, Function.comp]

/-- Witness for C2 at a concrete input. -/
theorem claim_C2_witness :
    (([(⟨"A", 0⟩ : seller.StockEntry)]).filter
      (fun e => decide (e.offer_id = "A"))).length = 1 :=
  (claim_C2_entry_count.1 [] ["A"] [⟨"A", 0⟩] (by decide)).2.2 (by decide) "A" (by decide)

/-- Counterexample to C2 as stated: with the duplicate-free offer list
`["A"]` and one record whose code `"X"` is unknown, `create_stocks`
returns 1 entry while `|offerIds ∪ codes(records)| = 2`. -/
theorem claim_C2_counterexample :
    (["A"] : List String).Nodup ∧
    (seller.create_stocks [⟨"X", "5", "p"⟩] ["A"]).map List.length = some 1 ∧
    ((["A"] ++ recordCodes [⟨"X", "5", "p"⟩]).dedup).length = 2 ∧
    (seller.create_stocks [⟨"X", "5", "p"⟩] ["A"]).map List.length ≠
      some ((["A"] ++ recordCodes [⟨"X", "5", "p"⟩]).dedup).length :=
  ⟨by decide, by decide, by decide, by decide⟩

end SellerApis

namespace SellerApis

/-- C3: `price_conversion` takes the substring before the first `.` and
deletes every character that is not an ASCII digit (it coincides with the
spec's `normalizePrice`); the result contains only digits, is empty
exactly when the integer part has no digit, and the spec's examples
evaluate as stated. -/
theorem claim_C3_price_normalizer :
    (∀ raw : String, price_conversion raw = normalizePrice raw) ∧
    (∀ raw : String, ∀ c ∈ (price_conversion raw).toList, c.isDigit = true) ∧
    (∀ raw : String, price_conversion raw = "" ↔
      ∀ c ∈ raw.toList.takeWhile (fun c => c != '.'), c.isDigit = false) ∧
    price_conversion "5'990.00 руб." = "5990" ∧
    price_conversion "7'500.50 руб." = "7500" := by
  refine ⟨price_conversion_eq_normalizePrice, ?_, ?_, by decide, by decide⟩
  · intro raw c hc
    rw [price_conversion_eq_normalizePrice] at hc
    have hc' : c ∈ (raw.toList.takeWhile (fun c => c != '.')).filter Char.isDigit := hc
    exact (List.mem_filter.mp hc').2
  · intro raw
    rw [price_conversion_eq_normalizePrice]
    unfold normalizePrice
    constructor
    · intro h c hcmem
      have hl : (raw.toList.takeWhile (fun c => c != '.')).filter Char.isDigit = [] := by
        have h2 := congrArg String.toList h
        simpa using h2
      have h3 := List.filter_eq_nil_iff.mp hl c hcmem
      simpa using h3
    · intro h
      have hl : (raw.toList.takeWhile (fun c => c != '.')).filter Char.isDigit = [] := by
        rw [List.filter_eq_nil_iff]
        intro c hcmem
        simp [h c hcmem]
      rw [hl]

/-- Witness for C3: a digit of a normalized price. -/
theorem claim_C3_witness : ('5').isDigit = true :=
  claim_C3_price_normalizer.2.1 "5'990.00 руб." '5' (by decide)

/-- C4 (amended): `seller.create_stocks` is a deterministic map of its
arguments, so two calls on the same inputs agree.  `market.create_stocks`
embeds the clock reading (`updatedAt`) in every entry: two calls agree up
to the `updatedAt` fields for any clock readings, and agree exactly when
the two calls read the same timestamp string. -/
theorem claim_C4_determinism :
    (∀ (ws : List Record) (ids : List String),
      seller.create_stocks ws ids = seller.create_stocks ws ids) ∧
    (∀ (d1 d2 : String) (ws : List Record) (ids : List String) (wh : String),
      (market.create_stocks d1 ws ids wh).map (List.map market.stripUpdatedAt) =
        (market.create_stocks d2 ws ids wh).map (List.map market.stripUpdatedAt)) ∧
    (∀ (d1 d2 : String) (ws : List Record) (ids : List String) (wh : String),
      d1 = d2 →
      market.create_stocks d1 ws ids wh = market.create_stocks d2 ws ids wh) := by
  have key : ∀ (d : String) (ws : List Record) (ids : List String) (wh : String),
      (market.create_stocks d ws ids wh).map (List.map market.stripUpdatedAt) =
        (seller.create_stocks_loop ws ids).map (fun r =>
          r.1.map (fun e => ⟨e.offer_id, wh, [⟨e.stock, "FIT", ""⟩]⟩) ++
          r.2.map (fun oid => ⟨oid, wh, [⟨0, "FIT", ""⟩]⟩)) := by
    intro d ws ids wh
    unfold market.create_stocks market.create_stocksS
    rw [market.create_stocks_loop_eq_seller]
    cases seller.create_stocks_loop ws ids with
    | none => rfl
    | some r =>
      simp [market.stripUpdatedAt, List.map_map, Function.comp_def]
  exact ⟨fun ws ids => rfl,
    fun d1 d2 ws ids wh => (key d1 ws ids wh).trans (key d2 ws ids wh).symm,
    fun d1 d2 ws ids wh h => by rw [h]⟩

/-- Witness for C4: two market runs that read the same clock string. -/
theorem claim_C4_witness :
    market.create_stocks "D" [] ["123"] "W" = market.create_stocks "D" [] ["123"] "W" :=
  claim_C4_determinism.2.2 "D" "D" [] ["123"] "W" rfl

/-- Counterexample to C4 as stated: `market.create_stocks` is not a map of
`(records, offerIds, warehouse)` alone — two calls whose ambient clock
readings differ by one second return different outputs. -/
theorem claim_C4_counterexample :
    market.create_stocks "2024-01-01T00:00:00Z" [] ["123"] "W" ≠
      market.create_stocks "2024-01-01T00:00:01Z" [] ["123"] "W" := by
  decide

/-- C5 (amended): for a duplicate-free offer-ID list, the final state of
the mutated `offer_ids` list is exactly the input list with every code
mentioned by the records removed, in original order (with duplicates in
the list, only the first occurrence of a matched code is removed, see the
counterexample); consequently the `create_prices` call that `seller.main`
makes on the already-consumed list returns no entries at all. -/
theorem claim_C5_offer_ids_mutation :
    (∀ (ws : List Record) (ids : List String) (out : List seller.StockEntry)
        (rest : List String),
      ids.Nodup → seller.create_stocksS ws ids = some (out, rest) →
      rest = ids.filter (fun oid => decide (oid ∉ recordCodes ws)) ∧
      seller.create_prices ws rest = []) ∧
    (∀ (d : String) (ws : List Record) (ids : List String) (wh : String)
        (out : List market.MarketStock) (rest : List String),
      ids.Nodup → market.create_stocksS d ws ids wh = some (out, rest) →
      rest = ids.filter (fun oid => decide (oid ∉ recordCodes ws))) := by
  constructor
  · intro ws ids out rest hN h
    obtain ⟨es, hloop, -⟩ := (seller.create_stocksS_eq_some ws ids out rest).mp h
    obtain ⟨-, -, -, -, hfil⟩ := seller.create_stocks_loop_spec ws ids rest es hloop
    have hrest := hfil hN
    refine ⟨hrest, ?_⟩
    apply seller.create_prices_eq_nil
    intro r hr hmem
    rw [hrest] at hmem
    have h2 := (List.mem_filter.mp hmem).2
    simp only [decide_eq_true_eq] at h2
    apply h2
    simp only [recordCodes, List.mem_map]
    exact ⟨r, hr, rfl⟩
  · intro d ws ids wh out rest hN h
    obtain ⟨es, hloop, -⟩ := (market.create_stocksS_via_seller d ws ids wh out rest).mp h
    obtain ⟨-, -, -, -, hfil⟩ := seller.create_stocks_loop_spec ws ids rest es hloop
    exact hfil hN

/-- Witness for C5 at a concrete input. -/
theorem claim_C5_witness :
    ((["B"] : List String) =
      (["A", "B"].filter (fun oid => decide (oid ∉ recordCodes [⟨"A", "5", "p"⟩])))) ∧
    seller.create_prices [⟨"A", "5", "p"⟩] ["B"] = [] :=
  claim_C5_offer_ids_mutation.1 [⟨"A", "5", "p"⟩] ["A", "B"]
    [⟨"A", 5⟩, ⟨"B", 0⟩] ["B"] (by decide) (by decide)

/-- Counterexample to C5 as stated: with the duplicate offer list
`["A", "A"]` and a record with code `"A"`, the final list still contains
`"A"` although `"A"` matched a record's code — only the first occurrence
was removed. -/
theorem claim_C5_counterexample :
    (seller.create_stocksS [⟨"A", "5", "p"⟩] ["A", "A"]).map Prod.snd = some ["A"] ∧
    "A" ∈ recordCodes [⟨"A", "5", "p"⟩] ∧
    (["A", "A"].filter (fun oid => decide (oid ∉ recordCodes [⟨"A", "5", "p"⟩]))) = [] ∧
    (seller.create_stocksS [⟨"A", "5", "p"⟩] ["A", "A"]).map Prod.snd ≠
      some (["A", "A"].filter (fun oid => decide (oid ∉ recordCodes [⟨"A", "5", "p"⟩]))) :=
  ⟨by decide, by decide, by decide, by decide⟩

/-- C6: on both platforms the output of `create_stocks` is the
record-derived entries first — their offer ids a subsequence of the
record codes, hence in input-record order — followed by the zero-stock
entries for the leftover offer ids, which are a sublist of the input
offer-ID list, hence in original catalog order. -/
theorem claim_C6_output_order :
    (∀ (ws : List Record) (ids : List String) (es : List seller.StockEntry)
        (rest : List String),
      seller.create_stocks_loop ws ids = some (es, rest) →
      seller.create_stocks ws ids =
        some (es ++ rest.map (fun oid => ⟨oid, 0⟩)) ∧
      (es.map seller.StockEntry.offer_id).Sublist (recordCodes ws) ∧
      rest.Sublist ids) ∧
    (∀ (d : String) (ws : List Record) (ids : List String) (wh : String)
        (es : List market.MarketStock) (rest : List String),
      market.create_stocks_loop d wh ws ids = some (es, rest) →
      market.create_stocks d ws ids wh =
        some (es ++ rest.map (fun oid => ⟨oid, wh, [⟨0, "FIT", d⟩]⟩)) ∧
      (es.map market.MarketStock.sku).Sublist (recordCodes ws) ∧
      rest.Sublist ids) := by
  constructor
  · intro ws ids es rest hloop
    obtain ⟨hsub, -, -, hcodes, -⟩ := seller.create_stocks_loop_spec ws ids rest es hloop
    exact ⟨(seller.create_stocks_eq_some ws ids _).mpr ⟨es, rest, hloop, rfl⟩,
      hcodes, hsub⟩
  · intro d ws ids wh es rest hloop
    rw [market.create_stocks_loop_eq_seller, Option.map_eq_some'] at hloop
    obtain ⟨⟨es0, rest0⟩, h1, h2⟩ := hloop
    simp only [Prod.mk.injEq] at h2
    obtain ⟨h2a, h2b⟩ := h2
    subst h2a
    subst h2b
    obtain ⟨hsub, -, -, hcodes, -⟩ := seller.create_stocks_loop_spec ws ids rest0 es0 h1
    refine ⟨(market.create_stocks_via_seller d ws ids wh _).mpr ⟨es0, rest0, h1, rfl⟩, ?_, hsub⟩
    have hmm :
        ((es0.map (fun e =>
          (⟨e.offer_id, wh, [⟨e.stock, "FIT", d⟩]⟩ : market.MarketStock))).map
            market.MarketStock.sku) = es0.map seller.StockEntry.offer_id := by
      rw [List.map_map]
      rfl
    rw [hmm]
    exact hcodes

/-- Witness for C6 at a concrete input. -/
theorem claim_C6_witness :
    seller.create_stocks [⟨"A", "5", "p"⟩] ["A", "B"] =
      some ([⟨"A", 5⟩] ++ ["B"].map (fun oid => ⟨oid, 0⟩)) ∧
    ([(⟨"A", 5⟩ : seller.StockEntry)].map seller.StockEntry.offer_id).Sublist
      (recordCodes [⟨"A", "5", "p"⟩]) ∧
    (["B"] : List String).Sublist ["A", "B"] :=
  claim_C6_output_order.1 [⟨"A", "5", "p"⟩] ["A", "B"] [⟨"A", 5⟩] ["B"] (by decide)

end SellerApis

namespace SellerApis

/-- C7: `create_prices` emits exactly one entry per record whose code is
known (the matching records in order, mapped to their price dicts), no
entry exists without a backing record (unlike stocks, there is no
zero-default), and the amount comes from the record's price string via
the normalizer; the spec's price-building scenario evaluates as stated on
both platforms. -/
theorem claim_C7_price_entries :
    (∀ (ws : List Record) (ids : List String),
      seller.create_prices ws ids =
        (ws.filter (fun r => decide (r.code ∈ ids))).map
          (fun r => ⟨"UNKNOWN", "RUB", r.code, "0", price_conversion r.price⟩)) ∧
    (∀ (ws : List Record) (ids : List String) (e : seller.PriceEntry),
      e ∈ seller.create_prices ws ids →
      ∃ r ∈ ws, r.code ∈ ids ∧ e.offer_id = r.code ∧
        e.price = price_conversion r.price) ∧
    (∀ (ws : List Record) (ids : List String) (out : List market.MarketPrice),
      market.create_prices ws ids = some out →
      out.length = (ws.filter (fun r => decide (r.code ∈ ids))).length ∧
      ∀ e ∈ out, ∃ r ∈ ws, r.code ∈ ids ∧ e.id = r.code ∧
        pyInt? (price_conversion r.price) = some e.value) ∧
    seller.create_prices [⟨"123", "q", "5'990.00 руб."⟩] ["123", "789"] =
      [⟨"UNKNOWN", "RUB", "123", "0", "5990"⟩] ∧
    market.create_prices [⟨"123", "q", "5'990.00 руб."⟩] ["123", "789"] =
      some [⟨"123", 5990, "RUR"⟩] := by
  refine ⟨seller.create_prices_eq_filter_map, ?_, market.create_prices_spec,
    by decide, by decide⟩
  intro ws ids e he
  rw [seller.create_prices_eq_filter_map] at he
  obtain ⟨r, hr, rfl⟩ := List.mem_map.mp he
  have hr2 := List.mem_filter.mp hr
  refine ⟨r, hr2.1, ?_, rfl, rfl⟩
  have := hr2.2
  simpa using this

/-- Witness for C7 at the spec's price-building scenario. -/
theorem claim_C7_witness :
    ([(⟨"123", 5990, "RUR"⟩ : market.MarketPrice)]).length =
      (([⟨"123", "q", "5'990.00 руб."⟩] : List Record).filter
        (fun r => decide (r.code ∈ ["123", "789"]))).length :=
  (claim_C7_price_entries.2.2.1 [⟨"123", "q", "5'990.00 руб."⟩] ["123", "789"]
    [⟨"123", 5990, "RUR"⟩] (by decide)).1

/-- C8: for positive `n`, `divide` yields consecutive chunks in order
whose concatenation is the input, each chunk at most `n` long and every
chunk but the last exactly `n` long; the spec's example evaluates as
stated. -/
theorem claim_C8_divide_chunks :
    (∀ (α : Type) (lst : List α) (n : Nat), 0 < n →
      (divide lst n).flatten = lst ∧
      (∀ c ∈ divide lst n, c.length ≤ n) ∧
      (∀ i, i + 1 < (divide lst n).length →
        ((divide lst n).getD i []).length = n)) ∧
    divide [1, 2, 3, 4, 5] 2 = [[1, 2], [3, 4], [5]] := by
  refine ⟨?_, by decide⟩
  intro α lst n hn
  exact ⟨divide_join n hn lst, divide_chunk_le n hn lst, divide_chunk_full n hn lst⟩

/-- Witness for C8 at the spec's example. -/
theorem claim_C8_witness : (divide [1, 2, 3, 4, 5] 2).flatten = [1, 2, 3, 4, 5] :=
  (claim_C8_divide_chunks.1 Nat [1, 2, 3, 4, 5] 2 (by decide)).1

/-- C9: string-typed input is a precondition of `price_conversion`: under
Python call semantics a `str` argument runs the body, while any
non-string argument fails (the attribute lookup `price.split` raises,
the docstring's advertised `TypeError`-equivalent) and no value is
returned. -/
theorem claim_C9_type_precondition :
    (∀ s : String,
      price_conversion_dyn (PyValue.str s) = Except.ok (price_conversion s)) ∧
    (∀ v : PyValue, (∀ s, v ≠ PyValue.str s) →
      ∀ out, price_conversion_dyn v ≠ Except.ok out) ∧
    price_conversion_dyn (PyValue.float 5990 0) =
      Except.error (PyError.attributeError "float" "split") ∧
    price_conversion_dyn (PyValue.int 5990) =
      Except.error (PyError.attributeError "int" "split") := by
  refine ⟨fun s => rfl, ?_, rfl, rfl⟩
  intro v hv out
  cases v with
  | str s => exact absurd rfl (hv s)
  | float u hd => simp [price_conversion_dyn]
  | int n => simp [price_conversion_dyn]

/-- Witness for C9: a non-string input yields no result. -/
theorem claim_C9_witness :
    price_conversion_dyn (PyValue.int 5) ≠ Except.ok "5" :=
  claim_C9_type_precondition.2.1 (PyValue.int 5) (fun _ h => PyValue.noConfusion h) "5"

/-- C10: on both platforms, whenever the page request made by the
pagination loop gets a non-success HTTP status (4xx/5xx), the whole fetch
aborts with that `HttpError` — for any state of the partial accumulator,
which is discarded, never returned; in particular a failing first page
makes `get_offer_ids` return the error. -/
theorem claim_C10_fetch_aborts :
    (∀ (net : String → HttpResponse seller.ProductPage) (fuel : Nat)
        (last_id : String) (acc : List seller.ProductItem),
      400 ≤ (net last_id).status → (net last_id).status < 600 →
      seller.get_offer_ids_go net (fuel + 1) last_id acc =
        Except.error (FetchError.http ⟨(net last_id).status⟩)) ∧
    (∀ (net : String → HttpResponse seller.ProductPage) (fuel : Nat),
      400 ≤ (net "").status → (net "").status < 600 →
      seller.get_offer_ids net (fuel + 1) =
        Except.error (FetchError.http ⟨(net "").status⟩)) ∧
    (∀ (net : String → HttpResponse market.MarketPage) (fuel : Nat)
        (page : String) (acc : List market.OfferMappingEntry),
      400 ≤ (net page).status → (net page).status < 600 →
      market.get_offer_ids_go net (fuel + 1) page acc =
        Except.error (FetchError.http ⟨(net page).status⟩)) ∧
    (∀ (net : String → HttpResponse market.MarketPage) (fuel : Nat),
      400 ≤ (net "").status → (net "").status < 600 →
      market.get_offer_ids net (fuel + 1) =
        Except.error (FetchError.http ⟨(net "").status⟩)) := by
  have hs : ∀ (net : String → HttpResponse seller.ProductPage) (fuel : Nat)
      (last_id : String) (acc : List seller.ProductItem),
      400 ≤ (net last_id).status → (net last_id).status < 600 →
      seller.get_offer_ids_go net (fuel + 1) last_id acc =
        Except.error (FetchError.http ⟨(net last_id).status⟩) := by
    intro net fuel last_id acc h1 h2
    simp [seller.get_offer_ids_go, seller.get_product_list, raise_for_status,
      Except.map, if_pos (And.intro h1 h2)]
  have hm : ∀ (net : String → HttpResponse market.MarketPage) (fuel : Nat)
      (page : String) (acc : List market.OfferMappingEntry),
      400 ≤ (net page).status → (net page).status < 600 →
      market.get_offer_ids_go net (fuel + 1) page acc =
        Except.error (FetchError.http ⟨(net page).status⟩) := by
    intro net fuel page acc h1 h2
    simp [market.get_offer_ids_go, market.get_product_list, raise_for_status,
      Except.map, if_pos (And.intro h1 h2)]
  refine ⟨hs, ?_, hm, ?_⟩
  · intro net fuel h1 h2
    unfold seller.get_offer_ids
    rw [hs net fuel "" [] h1 h2]
    rfl
  · intro net fuel h1 h2
    unfold market.get_offer_ids
    rw [hm net fuel "" [] h1 h2]
    rfl

/-- Witness for C10: a network that answers 500 to every request. -/
theorem claim_C10_witness :
    seller.get_offer_ids (fun _ => ⟨500, ⟨[], 0, ""⟩⟩) 1 =
      Except.error (FetchError.http ⟨500⟩) :=
  claim_C10_fetch_aborts.2.1 (fun _ => ⟨500, ⟨[], 0, ""⟩⟩) 0 (by decide) (by decide)

end SellerApis
